import Mathlib

/-!
Verification of the multidimensional Hermite recursion engine of
`thewalrus/_hermite_multidimensional.py`.

The engine fills a dense tensor indexed by multi-indices (tuples of
naturals) in increasing photon-number order.  We embed the code
shallowly:

* a multi-index is a `List ℕ`, a dense tensor is a total function
  `List ℕ → α` updated pointwise (the code mutates a `numpy` array in
  place; each loop iteration writes exactly one entry);
* the scalar type is an arbitrary `Field α` (the code works with
  `complex128`/`float64`); the precomputed square-root table `SQRT` is
  abstracted as a function `s : ℕ → α`, since every claim is an exact
  algebraic identity that holds for any table;
* fallible entry points return `Except String`, mirroring the
  `ValueError` raised on a shape mismatch.

Definitions are translated from the Python source; the few places where
a collaborator outside the source file is involved (the `libwalrus` C++
kernels and `input_validation`) are abstracted as explicit function
parameters and marked `Modelled from the spec`.
-/

set_option maxHeartbeats 1000000

namespace Walrus

/-- A dense tensor over multi-indices, as a total function. -/
abbrev Tensor (α : Type) : Type := List ℕ → α

/-- Pointwise update of a tensor: `array[idx] = v`. -/
def updF {β : Type} (f : List ℕ → β) (idx : List ℕ) (v : β) : List ℕ → β :=
  fun j => if j = idx then v else f j

/-- `dec(tup, i)`: a copy of the tuple with the `i`-th element decreased
by 1 (the code only ever calls this with `tup[i] > 0`). -/
def dec (t : List ℕ) (i : ℕ) : List ℕ :=
  t.set i (t.getD i 0 - 1)

/-- `remove(pattern)`: all pairs `(p, dec(pattern, p))` for the positions
`p` holding a strictly positive entry, in increasing position order. -/
def remove (pattern : List ℕ) : List (ℕ × List ℕ) :=
  (List.range pattern.length).filterMap
    (fun p => if 0 < pattern.getD p 0 then some (p, dec pattern p) else none)

/-- The index `i` selected by `for i, val in enumerate(idx): if val > 0: break`:
the first position holding a positive entry (the Python loop leaves `i` at
the last position when no entry is positive, and at `0` for the empty tuple). -/
def firstPositive : List ℕ → ℕ
  | [] => 0
  | x :: xs =>
    if 0 < x then 0
    else
      match xs with
      | [] => 0
      | _ :: _ => firstPositive xs + 1

/-- The range of candidate values for one coordinate in `partition`:
`range(min(photons, c - 1) + 1)` with Python's signed arithmetic. -/
def coordRange (photons c : ℕ) : List ℕ :=
  List.range (min (photons : ℤ) ((c : ℤ) - 1) + 1).toNat

/-- `itertools.product` over a list of ranges, leftmost coordinate slowest. -/
def rangesProduct : List (List ℕ) → List (List ℕ)
  | [] => [[]]
  | r :: rs => r.flatMap (fun k => (rangesProduct rs).map (fun t => k :: t))

/-- `partition(photons, cutoff)`: all ways of putting `photons` photons into
modes with the given cutoffs. -/
def partition (photons : ℕ) (cutoff : List ℕ) : List (List ℕ) :=
  (rangesProduct (cutoff.map (coordRange photons))).filter
    (fun comb => comb.sum == photons)

/-- Entry `R[i, l]` of the parameter matrix. -/
def Rget {α : Type} [Field α] (R : List (List α)) (i l : ℕ) : α :=
  (R.getD i []).getD l 0

/-- Entry `y[i]` of the parameter vector. -/
def yget {α : Type} [Field α] (y : List α) (i : ℕ) : α :=
  y.getD i 0

/-- The value written by one iteration of the fill loop: with `i` the first
positive position of `idx` and `ki = dec(idx, i)`, the accumulator
`u = y[i]*array[ki]` minus `SQRT[ki[l]]*R[i,l]*array[kl]` for every
`(l, kl)` from `remove(ki)`, divided by `SQRT[idx[i]]`. -/
def hstep {α : Type} [Field α] (R : List (List α)) (y : List α) (s : ℕ → α)
    (array : Tensor α) (idx : List ℕ) : α :=
  let i := firstPositive idx
  let ki := dec idx i
  let u := (remove ki).foldl
    (fun u pl => u - s (ki.getD pl.1 0) * Rget R i pl.1 * array pl.2)
    (yget y i * array ki)
  u / s (idx.getD i 0)

/-- `fill_hermite_multidimensional_numba_loop`: writes the recursion value
for `idx` into the tensor. -/
def fill_hermite_multidimensional_numba_loop {α : Type} [Field α]
    (array : Tensor α) (idx : List ℕ) (R : List (List α)) (y : List α)
    (s : ℕ → α) : Tensor α :=
  updF array idx (hstep R y s array idx)

/-- The generic one-entry update used by both sweeps. -/
def sweepStep {β : Type} (step : (List ℕ → β) → List ℕ → β)
    (f : List ℕ → β) (idx : List ℕ) : List ℕ → β :=
  updF f idx (step f idx)

/-- One photon level of a sweep: fold the update over `partition p cutoff`. -/
def levelFold {β : Type} (step : (List ℕ → β) → List ℕ → β)
    (cutoff : List ℕ) (f : List ℕ → β) (p : ℕ) : List ℕ → β :=
  (partition p cutoff).foldl (sweepStep step) f

/-- The full sweep over a list of photon levels. -/
def photonFold {β : Type} (step : (List ℕ → β) → List ℕ → β)
    (cutoff : List ℕ) (ps : List ℕ) (f : List ℕ → β) : List ℕ → β :=
  ps.foldl (levelFold step cutoff) f

/-- The initial value tensor: all zeros except the all-zero multi-index,
set to `C`. -/
def initT {α : Type} [Field α] (n : ℕ) (C : α) : Tensor α :=
  updF (fun _ => 0) (List.replicate n 0) C

/-- `hermite_multidimensional_numba(R, cutoff, y, C)` with a cutoff vector:
shape check, then the increasing-photon-number sweep filling the value
tensor.  `s` abstracts the global `SQRT` table. -/
def hermite_multidimensional_numba {α : Type} [Field α] (R : List (List α))
    (cutoff : List ℕ) (y : List α) (C : α) (s : ℕ → α) :
    Except String (Tensor α) :=
  if y.length ≠ R.length then
    Except.error "The matrix R and vector y have incompatible dimensions"
  else
    Except.ok (photonFold (hstep R y s) cutoff
      (List.range' 1 (cutoff.sum - y.length)) (initT y.length C))

/-- The pair written by one iteration of the gradient loop, first component
the `dG_dR` entry, second the `dG_dy` entry.  The code keeps two arrays of
scalars updated at the same index each iteration; we store them as one
pair-valued tensor. -/
def gstep {α : Type} [Field α] (R : List (List α)) (y : List α) (s : ℕ → α)
    (array : Tensor α) (G : List ℕ → α × α) (idx : List ℕ) : α × α :=
  let i := firstPositive idx
  let ki := dec idx i
  let acc := (remove ki).foldl
    (fun a pl =>
      (a.1 - s (ki.getD pl.1 0) * (Rget R i pl.1 * (G pl.2).1 + array pl.2),
       a.2 - s (ki.getD pl.1 0) * (G pl.2).2 * Rget R i pl.1))
    (yget y i * (G ki).1, yget y i * (G ki).2 + array ki)
  (acc.1 / s (idx.getD i 0), acc.2 / s (idx.getD i 0))

/-- `fill_grad_hermite_multidimensional_numba_loop`: writes the gradient
entries for `idx` into the pair-valued gradient tensor. -/
def fill_grad_hermite_multidimensional_numba_loop {α : Type} [Field α]
    (G : List ℕ → α × α) (array : Tensor α) (idx : List ℕ)
    (R : List (List α)) (y : List α) (s : ℕ → α) : List ℕ → α × α :=
  updF G idx (gstep R y s array G idx)

/-- `grad_hermite_multidimensional_numba(array, R, cutoff, y, C)`:
shape check, elementwise `dG_dC = array / C`, and the gradient sweep
filling `dG_dR` and `dG_dy` from all-zero tensors. -/
def grad_hermite_multidimensional_numba {α : Type} [Field α]
    (array : Tensor α) (R : List (List α)) (cutoff : List ℕ) (y : List α)
    (C : α) (s : ℕ → α) :
    Except String (Tensor α × Tensor α × Tensor α) :=
  if y.length ≠ R.length then
    Except.error "The matrix R and vector y have incompatible dimensions"
  else
    let G := photonFold (gstep R y s array) cutoff
      (List.range' 1 (cutoff.sum - y.length)) (fun _ => ((0 : α), (0 : α)))
    Except.ok (fun j => array j / C, fun j => (G j).1, fun j => (G j).2)

/-- Modelled from the spec: the naive enumerator that generates every
candidate over the full cutoff range `0 ≤ k_j < cutoff_j` and then filters
by sum — the reference point of the refinement claim about `partition`. -/
def partitionNaiveSpec (photons : ℕ) (cutoff : List ℕ) : List (List ℕ) :=
  (rangesProduct (cutoff.map (fun c => List.range c))).filter
    (fun comb => comb.sum == photons)

/-- Matrix-vector product `R @ y`. -/
def matVec {α : Type} [Field α] (R : List (List α)) (y : List α) : List α :=
  R.map (fun row => ((row.zip y).map (fun p => p.1 * p.2)).sum)

/-- Default value of the `rtol` parameter (`1e-05`). -/
def rtolDefault {α : Type} [Field α] : α := 1 / 100000

/-- Default value of the `atol` parameter (`1e-08`). -/
def atolDefault {α : Type} [Field α] : α := 1 / 100000000

/-- Modelled from the spec: the part of `hermite_multidimensional` after the
modified-recursion branch — defaulting an absent `y` to zeros, the shape
check, and the dispatch to the real/complex `libwalrus` kernels (which are
compiled C++ outside the source file and are abstracted here as the
parameter `kern`, taking `renorm`, `make_tensor`, `R`, `y`, `cutoff`). -/
def hermite_dispatch {α γ : Type} [Field α]
    (kern : Bool → Bool → List (List α) → List α → ℕ → γ)
    (R : List (List α)) (cutoff : ℕ) (y : Option (List α))
    (renorm makeTensor : Bool) : Except String γ :=
  let yv := y.getD (List.replicate R.length 0)
  if yv.length ≠ R.length then
    Except.error "The matrix R and vector y have incompatible dimensions"
  else Except.ok (kern renorm makeTensor R yv cutoff)

/-- The public wrapper `hermite_multidimensional`.  `valid` abstracts the
external `input_validation(R, atol=atol, rtol=rtol)` collaborator (its
failure raises before anything else runs).  When `modified` is false and a
`y` of matching length is present, the code transforms `y ← R @ y` and
re-enters itself with `modified=True` — omitting `rtol` and `atol` from the
recursive call, so they take their default values there. -/
def hermite_multidimensional {α γ : Type} [Field α]
    (valid : List (List α) → α → α → Bool)
    (kern : Bool → Bool → List (List α) → List α → ℕ → γ)
    (R : List (List α)) (cutoff : ℕ) (y : Option (List α))
    (renorm makeTensor modified : Bool) (rtol atol : α) : Except String γ :=
  if valid R rtol atol = false then Except.error "invalid input matrix"
  else
    match modified, y with
    | false, some yv =>
      if yv.length = R.length then
        if valid R rtolDefault atolDefault = false then
          Except.error "invalid input matrix"
        else hermite_dispatch kern R cutoff (some (matVec R yv)) renorm makeTensor
      else hermite_dispatch kern R cutoff (some yv) renorm makeTensor
    | _, _ => hermite_dispatch kern R cutoff y renorm makeTensor

/-- The memo cache of `partition` (`functools.lru_cache`), as an explicit
association list from `(photons, cutoff)` keys to cached results. -/
abbrev PCache : Type := List ((ℕ × List ℕ) × List (List ℕ))

/-- Cache lookup. -/
def pcFind : PCache → ℕ × List ℕ → Option (List (List ℕ))
  | [], _ => none
  | e :: rest, k => if e.1 = k then some e.2 else pcFind rest k

/-- `partition` with the explicit memo cache threaded through. -/
def partitionMemo (c : PCache) (photons : ℕ) (cutoff : List ℕ) :
    List (List ℕ) × PCache :=
  match pcFind c (photons, cutoff) with
  | some r => (r, c)
  | none => (partition photons cutoff, ((photons, cutoff), partition photons cutoff) :: c)

/-- A cache is coherent when every stored entry is the true value of
`partition` at its key. -/
def Coherent (c : PCache) : Prop :=
  ∀ e ∈ c, e.2 = partition e.1.1 e.1.2

/-- One photon level of the sweep with the memo cache threaded through:
look up (or compute and store) the partition list, then fill its entries. -/
def memoLevel {α : Type} [Field α] (R : List (List α)) (y : List α)
    (s : ℕ → α) (cutoff : List ℕ) (st : Tensor α × PCache) (photons : ℕ) :
    Tensor α × PCache :=
  let pr := partitionMemo st.2 photons cutoff
  (pr.1.foldl
    (fun array idx => fill_hermite_multidimensional_numba_loop array idx R y s)
    st.1, pr.2)

/-- The full sweep with the memo cache threaded through. -/
def memoRun {α : Type} [Field α] (R : List (List α)) (cutoff : List ℕ)
    (y : List α) (C : α) (s : ℕ → α) (c0 : PCache) : Tensor α × PCache :=
  (List.range' 1 (cutoff.sum - y.length)).foldl (memoLevel R y s cutoff)
    (initT y.length C, c0)

/-- `hermite_multidimensional_numba` with the memo cache made explicit:
the only mutable state surviving a call, threaded through the sweep and
returned alongside the tensor. -/
def hermite_numba_memo {α : Type} [Field α] (R : List (List α))
    (cutoff : List ℕ) (y : List α) (C : α) (s : ℕ → α) (c0 : PCache) :
    Except String (Tensor α × PCache) :=
  if y.length ≠ R.length then
    Except.error "The matrix R and vector y have incompatible dimensions"
  else
    Except.ok (memoRun R cutoff y C s c0)

/-- Projects the tensor out of a successful recursion run (zero tensor on
error); used to state concrete evaluations. -/
def getOkT {α : Type} [Field α] (e : Except String (Tensor α)) : Tensor α :=
  match e with
  | Except.ok t => t
  | Except.error _ => fun _ => 0

/-- Projects the `dG_dC` component out of a successful gradient run. -/
def getOkdC {α : Type} [Field α]
    (e : Except String (Tensor α × Tensor α × Tensor α)) : Tensor α :=
  match e with
  | Except.ok t => t.1
  | Except.error _ => fun _ => 0

/-! ### Basic lemmas about the index operations -/

theorem updF_self {β : Type} (f : List ℕ → β) (idx : List ℕ) (v : β) :
    updF f idx v idx = v := by
  simp [updF]

theorem updF_ne {β : Type} (f : List ℕ → β) (idx j : List ℕ) (v : β)
    (h : j ≠ idx) : updF f idx v j = f j := by
  simp [updF, h]

theorem dec_cons_zero (x : ℕ) (xs : List ℕ) : dec (x :: xs) 0 = (x - 1) :: xs := by
  simp [dec]

theorem dec_cons_succ (x : ℕ) (xs : List ℕ) (i : ℕ) :
    dec (x :: xs) (i + 1) = x :: dec xs i := by
  simp [dec]

theorem dec_length (t : List ℕ) (i : ℕ) : (dec t i).length = t.length :=
  List.length_set t i _

theorem getD_dec_self : ∀ (t : List ℕ) (i : ℕ), i < t.length →
    (dec t i).getD i 0 = t.getD i 0 - 1
  | [], i, h => absurd h (by simp)
  | x :: xs, 0, _ => by simp [dec_cons_zero]
  | x :: xs, i + 1, h => by
    rw [dec_cons_succ]
    simpa using getD_dec_self xs i (by simpa using h)

theorem getD_dec_ne : ∀ (t : List ℕ) (i j : ℕ), j ≠ i →
    (dec t i).getD j 0 = t.getD j 0
  | [], _, _, _ => by simp [dec]
  | x :: xs, 0, 0, h => absurd rfl h
  | x :: xs, 0, j + 1, _ => by simp [dec_cons_zero]
  | x :: xs, i + 1, 0, _ => by simp [dec_cons_succ]
  | x :: xs, i + 1, j + 1, h => by
    rw [dec_cons_succ]
    simpa using getD_dec_ne xs i j (fun hji => h (by omega))

theorem getD_dec_le : ∀ (t : List ℕ) (i j : ℕ), (dec t i).getD j 0 ≤ t.getD j 0
  | [], _, _ => by simp [dec]
  | x :: xs, 0, 0 => by simp [dec_cons_zero]
  | x :: xs, 0, j + 1 => by simp [dec_cons_zero]
  | x :: xs, i + 1, 0 => by simp [dec_cons_succ]
  | x :: xs, i + 1, j + 1 => by
    rw [dec_cons_succ]
    simpa using getD_dec_le xs i j

theorem getD_le_sum : ∀ (t : List ℕ) (j : ℕ), t.getD j 0 ≤ t.sum
  | [], j => by simp
  | x :: xs, 0 => by simp [List.sum_cons]
  | x :: xs, j + 1 => by
    simp only [List.getD_cons_succ, List.sum_cons]
    have := getD_le_sum xs j
    omega

theorem dec_sum : ∀ (t : List ℕ) (i : ℕ), i < t.length → 0 < t.getD i 0 →
    (dec t i).sum = t.sum - 1
  | [], i, h, _ => absurd h (by simp)
  | x :: xs, 0, _, hp => by
    rw [dec_cons_zero]
    simp only [List.sum_cons, List.getD_cons_zero] at *
    omega
  | x :: xs, i + 1, h, hp => by
    rw [dec_cons_succ]
    simp only [List.sum_cons, List.getD_cons_succ] at *
    have hle : xs.getD i 0 ≤ xs.sum := getD_le_sum xs i
    have := dec_sum xs i (by simpa using h) hp
    omega

theorem firstPositive_spec : ∀ (t : List ℕ), 0 < t.sum →
    0 < t.getD (firstPositive t) 0 ∧ firstPositive t < t.length ∧
      ∀ j < firstPositive t, t.getD j 0 = 0
  | [], h => by simp at h
  | x :: xs, h => by
    by_cases hx : 0 < x
    · refine ⟨by simp [firstPositive, hx], by simp [firstPositive, hx], ?_⟩
      intro j hj
      simp [firstPositive, hx] at hj
    · have hx0 : x = 0 := by omega
      subst hx0
      cases xs with
      | nil => simp at h
      | cons z zs =>
        have hfp : firstPositive (0 :: z :: zs) = firstPositive (z :: zs) + 1 := by
          simp [firstPositive]
        obtain ⟨h1, h2, h3⟩ := firstPositive_spec (z :: zs) (by simp at h ⊢; omega)
        refine ⟨by simpa [hfp] using h1, by simpa [hfp] using h2, ?_⟩
        intro j hj
        rw [hfp] at hj
        cases j with
        | zero => simp
        | succ j => simpa using h3 j (by omega)

theorem mem_remove {t : List ℕ} {pl : ℕ × List ℕ} :
    pl ∈ remove t ↔ pl.1 < t.length ∧ 0 < t.getD pl.1 0 ∧ pl.2 = dec t pl.1 := by
  unfold remove
  rw [List.mem_filterMap]
  constructor
  · rintro ⟨a, ha, hfa⟩
    rw [List.mem_range] at ha
    by_cases hpos : 0 < t.getD a 0
    · rw [if_pos hpos, Option.some_inj] at hfa
      subst hfa
      exact ⟨ha, hpos, rfl⟩
    · rw [if_neg hpos] at hfa
      exact absurd hfa (by simp)
  · rintro ⟨h1, h2, h3⟩
    refine ⟨pl.1, List.mem_range.mpr h1, ?_⟩
    rw [if_pos h2, Option.some_inj]
    cases pl
    simp only at h3
    simp [h3]

theorem mem_coordRange {p c k : ℕ} : k ∈ coordRange p c ↔ k ≤ p ∧ k < c := by
  unfold coordRange
  rw [List.mem_range]
  rcases le_total (p : ℤ) ((c : ℤ) - 1) with h | h
  · rw [min_eq_left h]; omega
  · rw [min_eq_right h]; omega

theorem mem_rangesProduct : ∀ (rs : List (List ℕ)) (idx : List ℕ),
    idx ∈ rangesProduct rs ↔ List.Forall₂ (fun k r => k ∈ r) idx rs
  | [], idx => by
    simp [rangesProduct, List.forall₂_nil_right_iff]
  | r :: rs, idx => by
    simp only [rangesProduct, List.mem_flatMap, List.mem_map]
    constructor
    · rintro ⟨k, hk, t, ht, rfl⟩
      exact List.Forall₂.cons hk ((mem_rangesProduct rs t).mp ht)
    · intro h
      cases idx with
      | nil => simp [List.forall₂_nil_left_iff] at h
      | cons k t =>
        rw [List.forall₂_cons] at h
        exact ⟨k, h.1, t, (mem_rangesProduct rs t).mpr h.2, rfl⟩

theorem mem_partition {photons : ℕ} {cutoff : List ℕ} {idx : List ℕ} :
    idx ∈ partition photons cutoff ↔
      List.Forall₂ (fun k c => k < c) idx cutoff ∧ idx.sum = photons := by
  unfold partition
  rw [List.mem_filter, mem_rangesProduct, List.forall₂_map_right_iff, beq_iff_eq]
  constructor
  · rintro ⟨hf, hsum⟩
    exact ⟨hf.imp (fun a b h => (mem_coordRange.mp h).2), hsum⟩
  · rintro ⟨hf, hsum⟩
    refine ⟨?_, hsum⟩
    have hle : ∀ k ∈ idx, k ≤ photons := fun k hk => by
      have := List.le_sum_of_mem hk
      omega
    clear hsum
    induction hf with
    | nil => exact List.Forall₂.nil
    | @cons a b l₁ l₂ hab htl ih =>
      refine List.Forall₂.cons (mem_coordRange.mpr ⟨hle a (by simp), hab⟩) ?_
      exact ih (fun k hk => hle k (by simp [hk]))

theorem sum_of_mem_partition {p : ℕ} {cutoff idx : List ℕ}
    (h : idx ∈ partition p cutoff) : idx.sum = p :=
  (mem_partition.mp h).2

theorem forall₂_lt_iff_getD : ∀ (idx cutoff : List ℕ),
    List.Forall₂ (fun k c => k < c) idx cutoff ↔
      (idx.length = cutoff.length ∧
        ∀ j < cutoff.length, idx.getD j 0 < cutoff.getD j 0)
  | [], [] => by simp
  | [], c :: cs => by simp [List.forall₂_nil_left_iff]
  | k :: ks, [] => by simp [List.forall₂_nil_right_iff]
  | k :: ks, c :: cs => by
    rw [List.forall₂_cons, forall₂_lt_iff_getD ks cs]
    constructor
    · rintro ⟨h1, h2, h3⟩
      refine ⟨by simp [h2], ?_⟩
      intro j hj
      cases j with
      | zero => simpa using h1
      | succ j => simpa using h3 j (by simpa using hj)
    · rintro ⟨h1, h2⟩
      refine ⟨by simpa using h2 0 (by simp), by simpa using h1, ?_⟩
      intro j hj
      simpa using h2 (j + 1) (by simpa using hj)

theorem mem_partition_getD {photons : ℕ} {cutoff idx : List ℕ} :
    idx ∈ partition photons cutoff ↔
      idx.length = cutoff.length ∧ idx.sum = photons ∧
        ∀ j < cutoff.length, idx.getD j 0 < cutoff.getD j 0 := by
  rw [mem_partition, forall₂_lt_iff_getD]
  tauto

/-! ### The sweep machinery

Both engines fold a one-entry update over `partition p cutoff` for `p`
increasing.  Each update writes exactly one entry, every entry written at
level `p` has photon number `p`, and the written value reads only entries
of strictly smaller photon number; hence the final tensor satisfies the
recurrence at every swept index. -/

theorem foldl_sweepStep_not_mem {β : Type} (step : (List ℕ → β) → List ℕ → β) :
    ∀ (idxs : List (List ℕ)) (f : List ℕ → β) (j : List ℕ), j ∉ idxs →
      (idxs.foldl (sweepStep step) f) j = f j
  | [], _, _, _ => rfl
  | a :: rest, f, j, h => by
    rw [List.foldl_cons,
      foldl_sweepStep_not_mem step rest _ j (fun hm => h (by simp [hm]))]
    exact updF_ne f a j _ (fun hj => h (by simp [hj]))

theorem levelFold_eval {β : Type} (step : (List ℕ → β) → List ℕ → β) (p : ℕ)
    (hcong : ∀ (T T' : List ℕ → β) (k : List ℕ), k.sum = p →
      (∀ j : List ℕ, j.sum < p → T j = T' j) → step T k = step T' k) :
    ∀ (idxs : List (List ℕ)), (∀ k ∈ idxs, k.sum = p) →
      ∀ (T Tpre : List ℕ → β), (∀ j : List ℕ, j.sum < p → T j = Tpre j) →
        ∀ idx ∈ idxs, (idxs.foldl (sweepStep step) T) idx = step Tpre idx
  | [], _, _, _, _, _, h => absurd h (by simp)
  | a :: rest, hall, T, Tpre, hag, idx, hmem => by
    rw [List.foldl_cons]
    by_cases hr : idx ∈ rest
    · refine levelFold_eval step p hcong rest
        (fun k hk => hall k (by simp [hk])) _ Tpre ?_ idx hr
      intro j hj
      have hja : j ≠ a := fun hja => by
        have := hall a (by simp)
        rw [hja] at hj
        omega
      rw [show sweepStep step T a j = T j from updF_ne T a j _ hja]
      exact hag j hj
    · have hia : idx = a := by
        rcases List.mem_cons.mp hmem with h | h
        · exact h
        · exact absurd h hr
      subst hia
      rw [foldl_sweepStep_not_mem step rest _ idx hr]
      rw [show sweepStep step T idx idx = step T idx from updF_self T idx _]
      exact hcong T Tpre idx (hall idx (by simp)) hag

theorem photonFold_not_sum_mem {β : Type} (step : (List ℕ → β) → List ℕ → β)
    (cutoff : List ℕ) :
    ∀ (ps : List ℕ) (f : List ℕ → β) (j : List ℕ), (∀ p ∈ ps, j.sum ≠ p) →
      photonFold step cutoff ps f j = f j
  | [], _, _, _ => rfl
  | p :: rest, f, j, h => by
    show photonFold step cutoff rest (levelFold step cutoff f p) j = f j
    rw [photonFold_not_sum_mem step cutoff rest _ j (fun q hq => h q (by simp [hq]))]
    exact foldl_sweepStep_not_mem step (partition p cutoff) f j
      (fun hm => h p (by simp) (sum_of_mem_partition hm))

theorem photonFold_fixpoint {β : Type} (step : (List ℕ → β) → List ℕ → β)
    (cutoff : List ℕ) (P : ℕ)
    (hcong : ∀ (T T' : List ℕ → β) (k : List ℕ), 1 ≤ k.sum →
      (∀ j : List ℕ, j.sum < k.sum → T j = T' j) → step T k = step T' k)
    (T0 : List ℕ → β) (p : ℕ) (hp1 : 1 ≤ p) (hp2 : p ≤ P) (idx : List ℕ)
    (hidx : idx ∈ partition p cutoff) :
    photonFold step cutoff (List.range' 1 P) T0 idx =
      step (photonFold step cutoff (List.range' 1 P) T0) idx := by
  have hsum : idx.sum = p := sum_of_mem_partition hidx
  have e1 : 1 + (p - 1) = p := by omega
  have e2 : P - p + 1 + (p - 1) = P := by omega
  have hsplit : List.range' 1 (p - 1) ++ List.range' p (P - p + 1) =
      List.range' 1 P := by
    have h := List.range'_append 1 (p - 1) (P - p + 1) 1
    simp only [Nat.one_mul] at h
    rw [e1, e2] at h
    exact h
  have hcons : List.range' p (P - p + 1) = p :: List.range' (p + 1) (P - p) := rfl
  have hdecomp : photonFold step cutoff (List.range' 1 P) T0 =
      photonFold step cutoff (List.range' (p + 1) (P - p))
        (levelFold step cutoff
          (photonFold step cutoff (List.range' 1 (p - 1)) T0) p) := by
    rw [← hsplit, hcons]
    show (List.range' 1 (p - 1) ++ p :: List.range' (p + 1) (P - p)).foldl
        (levelFold step cutoff) T0 = _
    rw [List.foldl_append, List.foldl_cons]
    rfl
  have hcong' : ∀ (T T' : List ℕ → β) (k : List ℕ), k.sum = p →
      (∀ j : List ℕ, j.sum < p → T j = T' j) → step T k = step T' k := by
    intro T T' k hk hag
    refine hcong T T' k (by omega) ?_
    intro j hj
    exact hag j (by omega)
  have hTp : levelFold step cutoff
      (photonFold step cutoff (List.range' 1 (p - 1)) T0) p idx =
      step (photonFold step cutoff (List.range' 1 (p - 1)) T0) idx :=
    levelFold_eval step p hcong' (partition p cutoff)
      (fun k hk => sum_of_mem_partition hk) _ _ (fun _ _ => rfl) idx hidx
  have hagree : ∀ j : List ℕ, j.sum < p →
      photonFold step cutoff (List.range' 1 P) T0 j =
        photonFold step cutoff (List.range' 1 (p - 1)) T0 j := by
    intro j hj
    rw [hdecomp]
    rw [photonFold_not_sum_mem step cutoff _ _ j (fun q hq => by
      rw [List.mem_range'_1] at hq
      omega)]
    exact foldl_sweepStep_not_mem step (partition p cutoff) _ j (fun hm => by
      have := sum_of_mem_partition hm
      omega)
  calc photonFold step cutoff (List.range' 1 P) T0 idx
      = levelFold step cutoff
          (photonFold step cutoff (List.range' 1 (p - 1)) T0) p idx := by
        rw [hdecomp]
        exact photonFold_not_sum_mem step cutoff _ _ idx (fun q hq => by
          rw [List.mem_range'_1] at hq
          omega)
    _ = step (photonFold step cutoff (List.range' 1 (p - 1)) T0) idx := hTp
    _ = step (photonFold step cutoff (List.range' 1 P) T0) idx := by
        refine hcong _ _ idx (by omega) ?_
        intro j hj
        exact (hagree j (by omega)).symm

theorem photonFold_zero_sum {β : Type} (step : (List ℕ → β) → List ℕ → β)
    (cutoff : List ℕ) (P : ℕ) (f : List ℕ → β) (j : List ℕ) (hj : j.sum = 0) :
    photonFold step cutoff (List.range' 1 P) f j = f j :=
  photonFold_not_sum_mem step cutoff _ f j (fun q hq => by
    rw [List.mem_range'_1] at hq
    omega)

/-! ### Fold helpers and step lemmas -/

theorem foldl_eq_of_mem {γ σ : Type} : ∀ (l : List γ) (f g : σ → γ → σ) (a : σ),
    (∀ x ∈ l, ∀ u, f u x = g u x) → l.foldl f a = l.foldl g a
  | [], _, _, _, _ => rfl
  | x :: xs, f, g, a, h => by
    rw [List.foldl_cons, List.foldl_cons, h x (by simp) a]
    exact foldl_eq_of_mem xs f g _ (fun z hz => h z (by simp [hz]))

theorem foldl_sub_eq_sub_sum {α : Type} [Field α] {γ : Type} :
    ∀ (l : List γ) (g : γ → α) (a : α),
      l.foldl (fun u x => u - g x) a = a - (l.map g).sum
  | [], _, _ => by simp
  | x :: xs, g, a => by
    rw [List.foldl_cons, foldl_sub_eq_sub_sum xs g (a - g x)]
    simp only [List.map_cons, List.sum_cons]
    ring

theorem foldl_pair_sub {α : Type} [Field α] {γ : Type} :
    ∀ (l : List γ) (g1 g2 : γ → α) (a b : α),
      l.foldl (fun p x => (p.1 - g1 x, p.2 - g2 x)) (a, b) =
        (a - (l.map g1).sum, b - (l.map g2).sum)
  | [], _, _, _, _ => by simp
  | x :: xs, g1, g2, a, b => by
    rw [List.foldl_cons, foldl_pair_sub xs g1 g2 _ _]
    simp only [List.map_cons, List.sum_cons, Prod.mk.injEq]
    constructor <;> ring

theorem filterMap_remove_aux {δ : Type} (t : List ℕ) (g : ℕ × List ℕ → δ) :
    ∀ L : List ℕ,
      ((L.filterMap
          (fun p => if 0 < t.getD p 0 then some (p, dec t p) else none)).map g) =
        (L.filter (fun l => decide (0 < t.getD l 0))).map (fun l => g (l, dec t l))
  | [] => rfl
  | x :: xs => by
    by_cases h : 0 < t.getD x 0
    · rw [List.filterMap_cons, if_pos h, List.filter_cons,
        if_pos (by simpa using h), List.map_cons, List.map_cons,
        filterMap_remove_aux t g xs]
    · rw [List.filterMap_cons, if_neg h, List.filter_cons,
        if_neg (by simpa using h), filterMap_remove_aux t g xs]

theorem remove_map {δ : Type} (t : List ℕ) (g : ℕ × List ℕ → δ) :
    (remove t).map g =
      ((List.range t.length).filter (fun l => decide (0 < t.getD l 0))).map
        (fun l => g (l, dec t l)) :=
  filterMap_remove_aux t g (List.range t.length)

theorem sum_dec_of_mem_remove {t : List ℕ} {pl : ℕ × List ℕ}
    (h : pl ∈ remove t) : pl.2.sum = t.sum - 1 := by
  obtain ⟨h1, h2, h3⟩ := mem_remove.mp h
  rw [h3]
  exact dec_sum t pl.1 h1 h2

theorem hstep_congr {α : Type} [Field α] (R : List (List α)) (y : List α)
    (s : ℕ → α) (T T' : Tensor α) (k : List ℕ) (hk : 1 ≤ k.sum)
    (hag : ∀ j : List ℕ, j.sum < k.sum → T j = T' j) :
    hstep R y s T k = hstep R y s T' k := by
  obtain ⟨hpos, hlen, -⟩ := firstPositive_spec k (by omega)
  have hki : (dec k (firstPositive k)).sum = k.sum - 1 := dec_sum k _ hlen hpos
  have h1 : T (dec k (firstPositive k)) = T' (dec k (firstPositive k)) :=
    hag _ (by omega)
  simp only [hstep]
  rw [h1]
  congr 1
  refine foldl_eq_of_mem _ _ _ _ ?_
  intro pl hm u
  have h2 : pl.2.sum = (dec k (firstPositive k)).sum - 1 := sum_dec_of_mem_remove hm
  rw [hag pl.2 (by omega)]

theorem gstep_congr {α : Type} [Field α] (R : List (List α)) (y : List α)
    (s : ℕ → α) (array : Tensor α) (G G' : List ℕ → α × α) (k : List ℕ)
    (hk : 1 ≤ k.sum)
    (hag : ∀ j : List ℕ, j.sum < k.sum → G j = G' j) :
    gstep R y s array G k = gstep R y s array G' k := by
  obtain ⟨hpos, hlen, -⟩ := firstPositive_spec k (by omega)
  have hki : (dec k (firstPositive k)).sum = k.sum - 1 := dec_sum k _ hlen hpos
  have h1 : G (dec k (firstPositive k)) = G' (dec k (firstPositive k)) :=
    hag _ (by omega)
  simp only [gstep]
  rw [h1]
  have hfold : List.foldl
      (fun (a : α × α) pl =>
        (a.1 - s ((dec k (firstPositive k)).getD pl.1 0) *
          (Rget R (firstPositive k) pl.1 * (G pl.2).1 + array pl.2),
         a.2 - s ((dec k (firstPositive k)).getD pl.1 0) * (G pl.2).2 *
          Rget R (firstPositive k) pl.1))
      (yget y (firstPositive k) * (G' (dec k (firstPositive k))).1,
       yget y (firstPositive k) * (G' (dec k (firstPositive k))).2 +
        array (dec k (firstPositive k)))
      (remove (dec k (firstPositive k))) =
      List.foldl
      (fun (a : α × α) pl =>
        (a.1 - s ((dec k (firstPositive k)).getD pl.1 0) *
          (Rget R (firstPositive k) pl.1 * (G' pl.2).1 + array pl.2),
         a.2 - s ((dec k (firstPositive k)).getD pl.1 0) * (G' pl.2).2 *
          Rget R (firstPositive k) pl.1))
      (yget y (firstPositive k) * (G' (dec k (firstPositive k))).1,
       yget y (firstPositive k) * (G' (dec k (firstPositive k))).2 +
        array (dec k (firstPositive k)))
      (remove (dec k (firstPositive k))) := by
    refine foldl_eq_of_mem _ _ _ _ ?_
    intro pl hm u
    have h2 : pl.2.sum = (dec k (firstPositive k)).sum - 1 :=
      sum_dec_of_mem_remove hm
    rw [hag pl.2 (by omega)]
  rw [hfold]

theorem hstep_sum_form {α : Type} [Field α] (R : List (List α)) (y : List α)
    (s : ℕ → α) (T : Tensor α) (idx : List ℕ) :
    hstep R y s T idx =
      (yget y (firstPositive idx) * T (dec idx (firstPositive idx)) -
        (((List.range (dec idx (firstPositive idx)).length).filter
            (fun l => decide (0 < (dec idx (firstPositive idx)).getD l 0))).map
          (fun l => s ((dec idx (firstPositive idx)).getD l 0) *
            Rget R (firstPositive idx) l *
            T (dec (dec idx (firstPositive idx)) l))).sum) /
      s (idx.getD (firstPositive idx) 0) := by
  simp only [hstep]
  rw [foldl_sub_eq_sub_sum]
  rw [remove_map (dec idx (firstPositive idx))
    (fun pl => s ((dec idx (firstPositive idx)).getD pl.1 0) *
      Rget R (firstPositive idx) pl.1 * T pl.2)]

theorem gstep_sum_form {α : Type} [Field α] (R : List (List α)) (y : List α)
    (s : ℕ → α) (array : Tensor α) (G : List ℕ → α × α) (idx : List ℕ) :
    gstep R y s array G idx =
      ((yget y (firstPositive idx) * (G (dec idx (firstPositive idx))).1 -
          (((List.range (dec idx (firstPositive idx)).length).filter
              (fun l => decide (0 < (dec idx (firstPositive idx)).getD l 0))).map
            (fun l => s ((dec idx (firstPositive idx)).getD l 0) *
              (Rget R (firstPositive idx) l *
                  (G (dec (dec idx (firstPositive idx)) l)).1 +
                array (dec (dec idx (firstPositive idx)) l)))).sum) /
        s (idx.getD (firstPositive idx) 0),
       (yget y (firstPositive idx) * (G (dec idx (firstPositive idx))).2 +
          array (dec idx (firstPositive idx)) -
          (((List.range (dec idx (firstPositive idx)).length).filter
              (fun l => decide (0 < (dec idx (firstPositive idx)).getD l 0))).map
            (fun l => s ((dec idx (firstPositive idx)).getD l 0) *
              (G (dec (dec idx (firstPositive idx)) l)).2 *
              Rget R (firstPositive idx) l)).sum) /
        s (idx.getD (firstPositive idx) 0)) := by
  simp only [gstep]
  rw [foldl_pair_sub]
  rw [remove_map (dec idx (firstPositive idx))
    (fun pl => s ((dec idx (firstPositive idx)).getD pl.1 0) *
      (Rget R (firstPositive idx) pl.1 *
          (G pl.2).1 + array pl.2))]
  rw [remove_map (dec idx (firstPositive idx))
    (fun pl => s ((dec idx (firstPositive idx)).getD pl.1 0) *
      (G pl.2).2 * Rget R (firstPositive idx) pl.1)]

theorem hermite_numba_ok {α : Type} [Field α] {R : List (List α)}
    {cutoff : List ℕ} {y : List α} {C : α} {s : ℕ → α} {T : Tensor α}
    (h : hermite_multidimensional_numba R cutoff y C s = Except.ok T) :
    y.length = R.length ∧
      T = photonFold (hstep R y s) cutoff
        (List.range' 1 (cutoff.sum - y.length)) (initT y.length C) := by
  unfold hermite_multidimensional_numba at h
  by_cases hl : y.length ≠ R.length
  · rw [if_pos hl] at h
    exact absurd h (by simp)
  · rw [if_neg hl] at h
    exact ⟨not_not.mp hl, (Except.ok.inj h).symm⟩

theorem grad_numba_ok {α : Type} [Field α] {array : Tensor α}
    {R : List (List α)} {cutoff : List ℕ} {y : List α} {C : α} {s : ℕ → α}
    {dC dR dy : Tensor α}
    (h : grad_hermite_multidimensional_numba array R cutoff y C s =
      Except.ok (dC, dR, dy)) :
    y.length = R.length ∧
      dC = (fun j => array j / C) ∧
      dR = (fun j => (photonFold (gstep R y s array) cutoff
        (List.range' 1 (cutoff.sum - y.length)) (fun _ => (0, 0)) j).1) ∧
      dy = (fun j => (photonFold (gstep R y s array) cutoff
        (List.range' 1 (cutoff.sum - y.length)) (fun _ => (0, 0)) j).2) := by
  unfold grad_hermite_multidimensional_numba at h
  by_cases hl : y.length ≠ R.length
  · rw [if_pos hl] at h
    exact absurd h (by simp)
  · rw [if_neg hl] at h
    simp only at h
    have h3 := Except.ok.inj h
    refine ⟨not_not.mp hl, ?_, ?_, ?_⟩
    · exact (congrArg Prod.fst h3).symm
    · exact (congrArg (fun z => z.2.1) h3).symm
    · exact (congrArg (fun z => z.2.2) h3).symm

theorem getD_mem_of_lt : ∀ (l : List ℕ) (j : ℕ), j < l.length → l.getD j 0 ∈ l
  | [], j, h => absurd h (by simp)
  | x :: xs, 0, _ => by simp
  | x :: xs, j + 1, h => by
    rw [List.getD_cons_succ]
    exact List.mem_cons_of_mem x (getD_mem_of_lt xs j (by simpa using h))

/-! ### The memo cache changes no result -/

theorem pcFind_coherent : ∀ (c : PCache), Coherent c → ∀ (k : ℕ × List ℕ)
    (r : List (List ℕ)), pcFind c k = some r → r = partition k.1 k.2
  | [], _, k, r, h => by simp [pcFind] at h
  | e :: rest, hc, k, r, h => by
    unfold pcFind at h
    by_cases he : e.1 = k
    · rw [if_pos he, Option.some_inj] at h
      rw [← h, hc e (by simp), he]
    · rw [if_neg he] at h
      exact pcFind_coherent rest (fun x hx => hc x (by simp [hx])) k r h

theorem partitionMemo_coherent (c : PCache) (hc : Coherent c) (p : ℕ)
    (co : List ℕ) :
    (partitionMemo c p co).1 = partition p co ∧
      Coherent (partitionMemo c p co).2 := by
  unfold partitionMemo
  cases hf : pcFind c (p, co) with
  | some r =>
    exact ⟨pcFind_coherent c hc (p, co) r hf, hc⟩
  | none =>
    refine ⟨rfl, ?_⟩
    intro e he
    rcases List.mem_cons.mp he with he' | he'
    · rw [he']
    · exact hc e he'

theorem fill_fold_eq_levelFold {α : Type} [Field α] (R : List (List α))
    (y : List α) (s : ℕ → α) (cutoff : List ℕ) (p : ℕ) (T : Tensor α) :
    (partition p cutoff).foldl
      (fun array idx => fill_hermite_multidimensional_numba_loop array idx R y s)
      T = levelFold (hstep R y s) cutoff T p := rfl

theorem memo_fold_eq {α : Type} [Field α] (R : List (List α)) (y : List α)
    (s : ℕ → α) (cutoff : List ℕ) :
    ∀ (ps : List ℕ) (T : Tensor α) (c : PCache), Coherent c →
      (ps.foldl (memoLevel R y s cutoff) (T, c)).1 =
        photonFold (hstep R y s) cutoff ps T ∧
      Coherent (ps.foldl (memoLevel R y s cutoff) (T, c)).2
  | [], T, c, hc => ⟨rfl, hc⟩
  | p :: rest, T, c, hc => by
    obtain ⟨h1, h2⟩ := partitionMemo_coherent c hc p cutoff
    rw [List.foldl_cons]
    have hstate : memoLevel R y s cutoff (T, c) p =
        (levelFold (hstep R y s) cutoff T p, (partitionMemo c p cutoff).2) := by
      show (List.foldl
        (fun array idx => fill_hermite_multidimensional_numba_loop array idx R y s)
        T (partitionMemo c p cutoff).1, (partitionMemo c p cutoff).2) = _
      rw [h1, fill_fold_eq_levelFold]
    rw [hstate]
    exact memo_fold_eq R y s cutoff rest _ _ h2

/-! ### Claim theorems -/

theorem partition_empty_cutoff (q : ℕ) :
    partition q [] = if 0 = q then [[]] else [] := by
  show List.filter (fun comb => comb.sum == q) [[]] = _
  by_cases h0 : 0 = q
  · rw [if_pos h0, List.filter_cons]
    rw [if_pos (by simp [← h0]), List.filter_nil]
  · rw [if_neg h0, List.filter_cons]
    rw [if_neg (by simp; omega), List.filter_nil]

/-- C2: for every `photons` and every cutoff tuple of positive integers,
`partition` returns exactly the multi-indices of length `len cutoff` whose
coordinates sum to `photons` with `0 ≤ k_j < cutoff_j` for every `j`; in
particular `partition 0 (3,3) = [(0,0)]`, `partition 5 (3,3)` is empty, and
for the empty cutoff tuple the result is nonempty exactly for `photons = 0`,
where it is the singleton empty multi-index. -/
theorem partition_enumerates (photons : ℕ) (cutoff : List ℕ)
    (hpos : ∀ c ∈ cutoff, 0 < c) :
    (∀ idx : List ℕ, idx ∈ partition photons cutoff ↔
      idx.length = cutoff.length ∧ idx.sum = photons ∧
        ∀ j < cutoff.length, idx.getD j 0 < cutoff.getD j 0) ∧
    partition 0 [3, 3] = [[0, 0]] ∧
    partition 5 [3, 3] = [] ∧
    (∀ q : ℕ, partition q [] ≠ [] ↔ q = 0) ∧
    partition 0 [] = [[]] := by
  refine ⟨fun idx => mem_partition_getD, by decide, by decide, ?_, by decide⟩
  intro q
  rw [partition_empty_cutoff]
  by_cases h0 : 0 = q
  · rw [if_pos h0]
    simp [← h0]
  · rw [if_neg h0]
    simp
    omega

theorem partition_enumerates_witness :
    [1, 0] ∈ partition 1 [2, 2] ↔
      [1, 0].length = [2, 2].length ∧ [1, 0].sum = 1 ∧
        ∀ j < [2, 2].length, [1, 0].getD j 0 < [2, 2].getD j 0 :=
  (partition_enumerates 1 [2, 2] (by decide)).1 [1, 0]

/-- C9: for every `photons` and `cutoff`, the optimized enumeration (each
coordinate bounded by `min(photons, cutoff_j - 1)` before the sum filter)
yields exactly the same set of multi-indices as the naive enumeration over
the full cutoff ranges followed by the sum filter. -/
theorem partition_refines_naive (photons : ℕ) (cutoff : List ℕ)
    (idx : List ℕ) :
    idx ∈ partition photons cutoff ↔ idx ∈ partitionNaiveSpec photons cutoff := by
  rw [mem_partition]
  unfold partitionNaiveSpec
  rw [List.mem_filter, mem_rangesProduct, List.forall₂_map_right_iff, beq_iff_eq]
  constructor
  · rintro ⟨hf, hsum⟩
    exact ⟨hf.imp (fun a b h => List.mem_range.mpr h), hsum⟩
  · rintro ⟨hf, hsum⟩
    exact ⟨hf.imp (fun a b h => List.mem_range.mp h), hsum⟩

/-- C5: for every matrix `R` and vector `y`, both
`hermite_multidimensional_numba` and `grad_hermite_multidimensional_numba`
report an error exactly when `y`'s length differs from `R`'s leading
dimension; on failure no tensor is produced at all (the result is the bare
error value). -/
theorem shape_mismatch_iff {α : Type} [Field α] (R : List (List α))
    (cutoff : List ℕ) (y : List α) (C : α) (s : ℕ → α) (array : Tensor α) :
    ((∃ e, hermite_multidimensional_numba R cutoff y C s = Except.error e) ↔
        y.length ≠ R.length) ∧
    ((∃ e, grad_hermite_multidimensional_numba array R cutoff y C s =
        Except.error e) ↔ y.length ≠ R.length) := by
  constructor
  · unfold hermite_multidimensional_numba
    by_cases hl : y.length ≠ R.length
    · rw [if_pos hl]
      simp [hl]
    · rw [if_neg hl]
      simp [hl]
  · unfold grad_hermite_multidimensional_numba
    by_cases hl : y.length ≠ R.length
    · rw [if_pos hl]
      simp [hl]
    · rw [if_neg hl]
      simp [hl]

/-- C6: in every sweep iteration over a cutoff whose entries are at most
1000, the square-root table is accessed only at indices in `[0, 999]`
(both the `SQRT[ki[l]]` factors and the divisor `SQRT[idx[i]]`), and the
divisor index `idx[i]` is strictly positive, so division by `sqrt 0` cannot
occur: the chosen position `i` always has `idx[i] > 0` at photon level ≥ 1. -/
theorem sqrt_table_access_bounds (cutoff : List ℕ)
    (h1000 : ∀ c ∈ cutoff, c ≤ 1000) (p : ℕ) (hp : 1 ≤ p) (idx : List ℕ)
    (hm : idx ∈ partition p cutoff) :
    0 < idx.getD (firstPositive idx) 0 ∧
    idx.getD (firstPositive idx) 0 ≤ 999 ∧
    ∀ pl ∈ remove (dec idx (firstPositive idx)),
      (dec idx (firstPositive idx)).getD pl.1 0 ≤ 999 := by
  obtain ⟨hlen, hsum, hbnd⟩ := mem_partition_getD.mp hm
  obtain ⟨hpos, hlt, -⟩ := firstPositive_spec idx (by omega)
  have hcut : ∀ j < cutoff.length, idx.getD j 0 ≤ 999 := by
    intro j hj
    have h1 := hbnd j hj
    have h2 := h1000 (cutoff.getD j 0) (getD_mem_of_lt cutoff j hj)
    omega
  refine ⟨hpos, ?_, ?_⟩
  · have := hcut (firstPositive idx) (by omega)
    omega
  · intro pl hmem
    obtain ⟨hl, hp2, -⟩ := mem_remove.mp hmem
    have hlen2 : (dec idx (firstPositive idx)).length = idx.length :=
      dec_length _ _
    have hle : (dec idx (firstPositive idx)).getD pl.1 0 ≤ idx.getD pl.1 0 :=
      getD_dec_le _ _ _
    have := hcut pl.1 (by omega)
    omega

theorem sqrt_table_access_bounds_witness :
    0 < [0, 1].getD (firstPositive [0, 1]) 0 ∧
    [0, 1].getD (firstPositive [0, 1]) 0 ≤ 999 ∧
    ∀ pl ∈ remove (dec [0, 1] (firstPositive [0, 1])),
      (dec [0, 1] (firstPositive [0, 1])).getD pl.1 0 ≤ 999 :=
  sqrt_table_access_bounds [2, 2] (by decide) 1 (by decide) [0, 1] (by decide)

/-- C1: the value tensor returned by `hermite_multidimensional_numba` has
the all-zero entry equal to `C`, and every entry at a multi-index `idx` of
photon number `p` (`1 ≤ p ≤ sum cutoff − n`, entries within the cutoffs)
equals `(y[i]*T[ki] − Σ_{l : ki[l] > 0} sqrt(ki[l])*R[i][l]*T[kl]) /
sqrt(idx[i])`, where `i` is the lowest position with `idx[i] > 0`
(the conjunct before the equation certifies this reading of
`firstPositive`), `ki = dec idx i` and `kl = dec ki l`. -/
theorem hermite_value_recurrence {α : Type} [Field α] (R : List (List α))
    (cutoff : List ℕ) (y : List α) (C : α) (s : ℕ → α) (T : Tensor α)
    (hok : hermite_multidimensional_numba R cutoff y C s = Except.ok T)
    (p : ℕ) (idx : List ℕ) (hp1 : 1 ≤ p) (hp2 : p ≤ cutoff.sum - y.length)
    (hlen : idx.length = cutoff.length) (hsum : idx.sum = p)
    (hbnd : ∀ j < cutoff.length, idx.getD j 0 < cutoff.getD j 0) :
    T (List.replicate y.length 0) = C ∧
    (0 < idx.getD (firstPositive idx) 0 ∧
      ∀ j < firstPositive idx, idx.getD j 0 = 0) ∧
    T idx =
      (yget y (firstPositive idx) * T (dec idx (firstPositive idx)) -
        (((List.range (dec idx (firstPositive idx)).length).filter
            (fun l => decide (0 < (dec idx (firstPositive idx)).getD l 0))).map
          (fun l => s ((dec idx (firstPositive idx)).getD l 0) *
            Rget R (firstPositive idx) l *
            T (dec (dec idx (firstPositive idx)) l))).sum) /
      s (idx.getD (firstPositive idx) 0) := by
  obtain ⟨hshape, hT⟩ := hermite_numba_ok hok
  subst hT
  have hmem : idx ∈ partition p cutoff := mem_partition_getD.mpr ⟨hlen, hsum, hbnd⟩
  refine ⟨?_, ?_, ?_⟩
  · rw [photonFold_zero_sum _ _ _ _ _ (by simp)]
    exact updF_self _ _ _
  · obtain ⟨a, -, c⟩ := firstPositive_spec idx (by omega)
    exact ⟨a, c⟩
  · have hfix := photonFold_fixpoint (hstep R y s) cutoff (cutoff.sum - y.length)
      (fun A B k hk hag => hstep_congr R y s A B k hk hag)
      (initT y.length C) p hp1 hp2 idx hmem
    rw [hfix, hstep_sum_form]

theorem hermite_value_recurrence_witness :
    getOkT (hermite_multidimensional_numba [[(2 : ℚ)]] [2] [(3 : ℚ)] 1
        (fun n => (n : ℚ))) (List.replicate 1 0) = 1 :=
  (hermite_value_recurrence [[(2 : ℚ)]] [2] [(3 : ℚ)] 1 (fun n => (n : ℚ)) _
    rfl 1 [1] (by decide) (by decide) (by decide) (by decide) (by decide)).1

/-- C3: `grad_hermite_multidimensional_numba` returns `dG_dC = array / C`
computed elementwise with no sweep, and fills `dG_dR`, `dG_dy` from
all-zero tensors by the same increasing-photon-number sweep and
first-positive-position tie-break as the value recursion, every swept entry
satisfying `dG_dR[idx] = (y[i]*dG_dR[ki] − Σ sqrt(ki[l])*(R[i][l]*dG_dR[kl]
+ array[kl])) / sqrt(idx[i])` and `dG_dy[idx] = (y[i]*dG_dy[ki] + array[ki]
− Σ sqrt(ki[l])*dG_dy[kl]*R[i][l]) / sqrt(idx[i])`. -/
theorem grad_recurrence {α : Type} [Field α] (array : Tensor α)
    (R : List (List α)) (cutoff : List ℕ) (y : List α) (C : α) (s : ℕ → α)
    (dC dR dy : Tensor α)
    (hok : grad_hermite_multidimensional_numba array R cutoff y C s =
      Except.ok (dC, dR, dy))
    (p : ℕ) (idx : List ℕ) (hp1 : 1 ≤ p) (hp2 : p ≤ cutoff.sum - y.length)
    (hlen : idx.length = cutoff.length) (hsum : idx.sum = p)
    (hbnd : ∀ j < cutoff.length, idx.getD j 0 < cutoff.getD j 0) :
    dC = (fun j => array j / C) ∧
    dR (List.replicate y.length 0) = 0 ∧
    dy (List.replicate y.length 0) = 0 ∧
    dR idx =
      (yget y (firstPositive idx) * dR (dec idx (firstPositive idx)) -
        (((List.range (dec idx (firstPositive idx)).length).filter
            (fun l => decide (0 < (dec idx (firstPositive idx)).getD l 0))).map
          (fun l => s ((dec idx (firstPositive idx)).getD l 0) *
            (Rget R (firstPositive idx) l *
                dR (dec (dec idx (firstPositive idx)) l) +
              array (dec (dec idx (firstPositive idx)) l)))).sum) /
      s (idx.getD (firstPositive idx) 0) ∧
    dy idx =
      (yget y (firstPositive idx) * dy (dec idx (firstPositive idx)) +
        array (dec idx (firstPositive idx)) -
        (((List.range (dec idx (firstPositive idx)).length).filter
            (fun l => decide (0 < (dec idx (firstPositive idx)).getD l 0))).map
          (fun l => s ((dec idx (firstPositive idx)).getD l 0) *
            dy (dec (dec idx (firstPositive idx)) l) *
            Rget R (firstPositive idx) l)).sum) /
      s (idx.getD (firstPositive idx) 0) := by
  obtain ⟨hshape, hdC, hdR, hdy⟩ := grad_numba_ok hok
  have hmem : idx ∈ partition p cutoff := mem_partition_getD.mpr ⟨hlen, hsum, hbnd⟩
  have hfix := photonFold_fixpoint (gstep R y s array) cutoff
    (cutoff.sum - y.length)
    (fun A B k hk hag => gstep_congr R y s array A B k hk hag)
    (fun _ => (0, 0)) p hp1 hp2 idx hmem
  refine ⟨hdC, ?_, ?_, ?_, ?_⟩
  · simp only [hdR]
    rw [photonFold_zero_sum _ _ _ _ _ (by simp)]
  · simp only [hdy]
    rw [photonFold_zero_sum _ _ _ _ _ (by simp)]
  · simp only [hdR]
    rw [hfix, gstep_sum_form]
  · simp only [hdy]
    rw [hfix, gstep_sum_form]

theorem grad_recurrence_witness :
    getOkdC (grad_hermite_multidimensional_numba (fun _ => (5 : ℚ))
      [[(2 : ℚ)]] [2] [(3 : ℚ)] 1 (fun n => (n : ℚ))) =
      fun j => (fun _ => (5 : ℚ)) j / 1 :=
  (grad_recurrence (fun _ => (5 : ℚ)) [[(2 : ℚ)]] [2] [(3 : ℚ)] 1
    (fun n => (n : ℚ)) _ _ _ rfl 1 [1] (by decide) (by decide) (by decide)
    (by decide) (by decide)).1

/-- C4 counterexample: with `C = 2`, the value tensor's all-zero entry is
`2`, and the `dC` tensor's all-zero entry is `2 / 2 = 1`, not `1 / C = 1/2`
as the claim states. -/
theorem grad_dC_zero_index_counterexample :
    ¬ (getOkdC (grad_hermite_multidimensional_numba
        (getOkT (hermite_multidimensional_numba [[(1 : ℚ)]] [1] [(0 : ℚ)] 2
          (fun n => (n : ℚ))))
        [[(1 : ℚ)]] [1] [(0 : ℚ)] 2 (fun n => (n : ℚ)))
      (List.replicate 1 0) = 1 / 2) := by
  intro h
  have he : getOkdC (grad_hermite_multidimensional_numba
      (getOkT (hermite_multidimensional_numba [[(1 : ℚ)]] [1] [(0 : ℚ)] 2
        (fun n => (n : ℚ))))
      [[(1 : ℚ)]] [1] [(0 : ℚ)] 2 (fun n => (n : ℚ)))
      (List.replicate 1 0) = (2 : ℚ) / 2 := rfl
  rw [he] at h
  norm_num at h

/-- C4 amended: for every value tensor produced by
`hermite_multidimensional_numba` with constant `C ≠ 0`, the `dC` gradient
tensor returned by `grad_hermite_multidimensional_numba` with the same `C`
has value `C / C = 1` (not `1 / C`) at the all-zero multi-index. -/
theorem grad_dC_zero_index_amended {α : Type} [Field α] (R : List (List α))
    (cutoff : List ℕ) (y : List α) (C : α) (s : ℕ → α) (T dC dR dy : Tensor α)
    (hC : C ≠ 0)
    (hok : hermite_multidimensional_numba R cutoff y C s = Except.ok T)
    (hgrad : grad_hermite_multidimensional_numba T R cutoff y C s =
      Except.ok (dC, dR, dy)) :
    dC (List.replicate y.length 0) = 1 := by
  obtain ⟨-, hT⟩ := hermite_numba_ok hok
  obtain ⟨-, hdC, -, -⟩ := grad_numba_ok hgrad
  subst hT
  simp only [hdC]
  rw [photonFold_zero_sum _ _ _ _ _ (by simp)]
  rw [show initT y.length C (List.replicate y.length 0) = C from
    updF_self _ _ _]
  exact div_self hC

theorem grad_dC_zero_index_amended_witness :
    getOkdC (grad_hermite_multidimensional_numba
      (getOkT (hermite_multidimensional_numba [[(1 : ℚ)]] [1] [(0 : ℚ)] 2
        (fun n => (n : ℚ))))
      [[(1 : ℚ)]] [1] [(0 : ℚ)] 2 (fun n => (n : ℚ)))
      (List.replicate 1 0) = 1 :=
  grad_dC_zero_index_amended [[(1 : ℚ)]] [1] [(0 : ℚ)] 2 (fun n => (n : ℚ))
    _ _ _ _ (by norm_num) rfl rfl

/-- C10: `grad_hermite_multidimensional_numba` performs no validation of
the constant `C`: once the shape check passes, the call succeeds for every
`C` — including `C = 0` — and the returned `dC` tensor is the unguarded
elementwise division `array / C`. -/
theorem grad_no_C_validation {α : Type} [Field α] (array : Tensor α)
    (R : List (List α)) (cutoff : List ℕ) (y : List α) (s : ℕ → α)
    (h : y.length = R.length) :
    ∀ C : α, ∃ t, grad_hermite_multidimensional_numba array R cutoff y C s =
        Except.ok t ∧ t.1 = fun j => array j / C := by
  intro C
  unfold grad_hermite_multidimensional_numba
  rw [if_neg (fun hne => hne h)]
  exact ⟨_, rfl, rfl⟩

theorem grad_no_C_validation_witness :
    ∃ t, grad_hermite_multidimensional_numba (fun _ => (7 : ℚ)) [[(1 : ℚ)]]
        [2] [(0 : ℚ)] 0 (fun n => (n : ℚ)) = Except.ok t ∧
      t.1 = fun j => (fun _ => (7 : ℚ)) j / 0 :=
  grad_no_C_validation (fun _ => (7 : ℚ)) [[(1 : ℚ)]] [2] [(0 : ℚ)]
    (fun n => (n : ℚ)) rfl 0

/-- C8: running `hermite_multidimensional_numba` twice with identical
inputs yields identical output tensors.  The only mutable state surviving a
call is the `partition` memo cache (made explicit here; the `SQRT` table is
read-only); starting from any coherent cache, the first call succeeds, its
cache stays coherent, the second call (from the first call's cache)
succeeds, its tensor equals the first one, and both equal the pure
cache-free run. -/
theorem hermite_memo_idempotent {α : Type} [Field α] (R : List (List α))
    (cutoff : List ℕ) (y : List α) (C : α) (s : ℕ → α) (c0 : PCache)
    (hc : Coherent c0) (h : y.length = R.length) :
    hermite_numba_memo R cutoff y C s c0 =
      Except.ok (memoRun R cutoff y C s c0) ∧
    Coherent (memoRun R cutoff y C s c0).2 ∧
    hermite_numba_memo R cutoff y C s (memoRun R cutoff y C s c0).2 =
      Except.ok (memoRun R cutoff y C s (memoRun R cutoff y C s c0).2) ∧
    (memoRun R cutoff y C s (memoRun R cutoff y C s c0).2).1 =
      (memoRun R cutoff y C s c0).1 ∧
    hermite_multidimensional_numba R cutoff y C s =
      Except.ok (memoRun R cutoff y C s c0).1 := by
  obtain ⟨k1, k2⟩ := memo_fold_eq R y s cutoff
    (List.range' 1 (cutoff.sum - y.length)) (initT y.length C) c0 hc
  obtain ⟨k3, k4⟩ := memo_fold_eq R y s cutoff
    (List.range' 1 (cutoff.sum - y.length)) (initT y.length C)
    (memoRun R cutoff y C s c0).2 k2
  refine ⟨?_, k2, ?_, ?_, ?_⟩
  · unfold hermite_numba_memo
    rw [if_neg (fun hne => hne h)]
  · unfold hermite_numba_memo
    rw [if_neg (fun hne => hne h)]
  · show (memoRun R cutoff y C s (memoRun R cutoff y C s c0).2).1 = _
    rw [show (memoRun R cutoff y C s (memoRun R cutoff y C s c0).2).1 =
      photonFold (hstep R y s) cutoff
        (List.range' 1 (cutoff.sum - y.length)) (initT y.length C) from k3]
    rw [show (memoRun R cutoff y C s c0).1 =
      photonFold (hstep R y s) cutoff
        (List.range' 1 (cutoff.sum - y.length)) (initT y.length C) from k1]
  · unfold hermite_multidimensional_numba
    rw [if_neg (fun hne => hne h)]
    rw [show (memoRun R cutoff y C s c0).1 =
      photonFold (hstep R y s) cutoff
        (List.range' 1 (cutoff.sum - y.length)) (initT y.length C) from k1]

theorem hermite_memo_idempotent_witness :
    (memoRun [[(2 : ℚ)]] [2] [(3 : ℚ)] 1 (fun n => (n : ℚ))
        (memoRun [[(2 : ℚ)]] [2] [(3 : ℚ)] 1 (fun n => (n : ℚ)) []).2).1 =
      (memoRun [[(2 : ℚ)]] [2] [(3 : ℚ)] 1 (fun n => (n : ℚ)) []).1 :=
  (hermite_memo_idempotent [[(2 : ℚ)]] [2] [(3 : ℚ)] 1 (fun n => (n : ℚ)) []
    (fun e he => absurd he (List.not_mem_nil e)) rfl).2.2.2.1

/-- C7 counterexample: the recursive call the unmodified branch makes does
not keep the other parameters unchanged — it omits `rtol` and `atol`, which
therefore revert to their defaults.  With a validation collaborator that
accepts `R` at `rtol = 1` but rejects it at the default `rtol`, the
unmodified call fails while the claimed recursive call (modified, same
`rtol`/`atol`) succeeds. -/
theorem hermite_md_unmodified_counterexample :
    hermite_multidimensional (fun _ r _ => decide (r = (1 : ℚ)))
        (fun _ _ _ _ _ => (0 : ℚ)) [[(1 : ℚ)]] 3 (some [(5 : ℚ)])
        false false false 1 0 ≠
      hermite_multidimensional (fun _ r _ => decide (r = (1 : ℚ)))
        (fun _ _ _ _ _ => (0 : ℚ)) [[(1 : ℚ)]] 3
        (some (matVec [[(1 : ℚ)]] [(5 : ℚ)])) false false true 1 0 := by
  intro h
  have hdec : decide (rtolDefault = (1 : ℚ)) = false :=
    decide_eq_false (by norm_num [rtolDefault])
  have hs : hermite_multidimensional (fun _ r _ => decide (r = (1 : ℚ)))
      (fun _ _ _ _ _ => (0 : ℚ)) [[(1 : ℚ)]] 3 (some [(5 : ℚ)])
      false false false 1 0 =
      (if decide (rtolDefault = (1 : ℚ)) = false
        then Except.error "invalid input matrix"
        else hermite_dispatch (fun _ _ _ _ _ => (0 : ℚ)) [[(1 : ℚ)]] 3
          (some (matVec [[(1 : ℚ)]] [(5 : ℚ)])) false false) := rfl
  have h1 : hermite_multidimensional (fun _ r _ => decide (r = (1 : ℚ)))
      (fun _ _ _ _ _ => (0 : ℚ)) [[(1 : ℚ)]] 3 (some [(5 : ℚ)])
      false false false 1 0 = Except.error "invalid input matrix" := by
    rw [hs, hdec]
    simp
  have h2 : hermite_multidimensional (fun _ r _ => decide (r = (1 : ℚ)))
      (fun _ _ _ _ _ => (0 : ℚ)) [[(1 : ℚ)]] 3
      (some (matVec [[(1 : ℚ)]] [(5 : ℚ)])) false false true 1 0 =
      Except.ok (0 : ℚ) := rfl
  rw [h1, h2] at h
  exact Except.noConfusion h

/-- C7 amended: when the initial validation of `R` at `(rtol, atol)`
passes and `y` is present with length matching `R`'s dimension, the
unmodified call returns the result of the recursive call with
`modified = true`, `y` replaced by `R @ y`, `renorm` and `make_tensor`
unchanged, and `rtol`, `atol` reset to their default values (they are
omitted from the recursive call in the source). -/
theorem hermite_md_unmodified_recursion {α γ : Type} [Field α]
    (valid : List (List α) → α → α → Bool)
    (kern : Bool → Bool → List (List α) → List α → ℕ → γ)
    (R : List (List α)) (cutoff : ℕ) (yv : List α)
    (renorm makeTensor : Bool) (rtol atol : α)
    (hvalid : valid R rtol atol = true) (hlen : yv.length = R.length) :
    hermite_multidimensional valid kern R cutoff (some yv) renorm makeTensor
        false rtol atol =
      hermite_multidimensional valid kern R cutoff (some (matVec R yv))
        renorm makeTensor true rtolDefault atolDefault := by
  unfold hermite_multidimensional
  rw [hvalid]
  rw [if_neg (by simp)]
  show (if yv.length = R.length
      then (if valid R rtolDefault atolDefault = false
        then Except.error "invalid input matrix"
        else hermite_dispatch kern R cutoff (some (matVec R yv)) renorm
          makeTensor)
      else hermite_dispatch kern R cutoff (some yv) renorm makeTensor) = _
  rw [if_pos hlen]

theorem hermite_md_unmodified_recursion_witness :
    hermite_multidimensional (fun _ _ _ => true) (fun _ _ _ _ _ => (0 : ℚ))
        [[(1 : ℚ)]] 3 (some [(5 : ℚ)]) false false false 1 0 =
      hermite_multidimensional (fun _ _ _ => true) (fun _ _ _ _ _ => (0 : ℚ))
        [[(1 : ℚ)]] 3 (some (matVec [[(1 : ℚ)]] [(5 : ℚ)])) false false true
        rtolDefault atolDefault :=
  hermite_md_unmodified_recursion (fun _ _ _ => true)
    (fun _ _ _ _ _ => (0 : ℚ)) [[(1 : ℚ)]] 3 [(5 : ℚ)] false false 1 0 rfl rfl

end Walrus
